import Mathlib

/-!
# Verification of the react-env-secrets environment accessor library

Shallow embedding of `src/index.ts`.  JavaScript objects holding
environment variables are modelled as insertion-ordered association lists
from string keys to optional string values (`none` models a binding whose
value is literally `undefined`; a missing key reads as `none` as well,
matching JavaScript member access).  JavaScript strings are modelled
through their character lists.
-/

/-- A JavaScript object used as a string-keyed map, in insertion order. -/
abbrev JSObj := List (String × Option String)

/-- Member read `o[k]`: value of the first binding of `k`, `none` when the
key is absent (JavaScript yields `undefined` in both cases). -/
def jsGet : JSObj → String → Option String
  | [], _ => none
  | kv :: o, k => if kv.1 = k then kv.2 else jsGet o k

/-- Key-presence test `k in o` on a JavaScript object. -/
def jsHas : JSObj → String → Bool
  | [], _ => false
  | kv :: o, k => if kv.1 = k then true else jsHas o k

/-- Member write `o[k] = v`: updates the binding in place when the key is
present, otherwise appends a new binding (JavaScript object semantics). -/
def jsSet (o : JSObj) (k : String) (v : Option String) : JSObj :=
  if jsHas o k then
    o.map (fun kv => if kv.1 = k then (k, v) else kv)
  else
    o ++ [(k, v)]

/-- `Object.keys o`, in insertion order. -/
def jsKeys (o : JSObj) : List String := o.map Prod.fst

/-- JavaScript `k.startsWith p`, on the character level. -/
def startsWithS (k p : String) : Bool := p.data.isPrefixOf k.data

/-- JavaScript `s.length`. -/
def lenS (s : String) : Nat := s.data.length

/-- JavaScript `s.slice n`: drop the first `n` characters. -/
def dropS (s : String) (n : Nat) : String := String.mk (s.data.drop n)

/-- The four built-in prefixes of `getAllEnvVars` (src/index.ts line 27). -/
def defaultPrefixes : List String :=
  ["REACT_APP_", "NEXT_PUBLIC_", "VITE_", "PUBLIC_"]

/-- `customPrefix ? [customPrefix] : [...]` (line 27).  An absent or empty
custom value is falsy in JavaScript, so both select the default list. -/
def activePrefixes (customPrefix : Option String) : List String :=
  match customPrefix with
  | some p => if p = "" then defaultPrefixes else [p]
  | none => defaultPrefixes

/-- The `reduce` of lines 39-41: fold over the prefix list, stripping each
listed value that the current (possibly already stripped) key starts with. -/
def cleanKeyOf (prefixes : List String) (key : String) : String :=
  prefixes.foldl (fun k p => if startsWithS k p then dropS k (lenS p) else k) key

/-- Body of the `forEach` of lines 30-47 for one ambient key. -/
def resolveStep (E : JSObj) (P : List String) (acc : JSObj) (key : String) : JSObj :=
  match jsGet E key with
  | none => acc
  | some v =>
    if P.any (fun p => startsWithS key p) then
      jsSet (jsSet acc (cleanKeyOf P key) (some v)) key (some v)
    else acc

/-- The `forEach` of lines 30-47 over a list of ambient keys. -/
def resolveGo (E : JSObj) (P : List String) (ks : List String) (acc : JSObj) : JSObj :=
  ks.foldl (resolveStep E P) acc

/-- `getAllEnvVars` (lines 19-50).  `isBrowser` models
`typeof window !== 'undefined'`; when false the ambient map is returned
unfiltered (server side). -/
def getAllEnvVars (isBrowser : Bool) (env : JSObj) (customPrefix : Option String) : JSObj :=
  if isBrowser then
    resolveGo env (activePrefixes customPrefix) (jsKeys env) []
  else env

/-- One ambient key `k` matches when its value is defined and it starts
with some active prefix (lines 33-35 of the source). -/
def matchedKey (E : JSObj) (P : List String) (k : String) : Bool :=
  (jsGet E k).isSome && P.any (fun p => startsWithS k p)

/-- Ambient key `k` writes output slot `x` when it matches and `x` is its
original or its cleaned name (lines 42-44 of the source). -/
def writesTo (E : JSObj) (P : List String) (k x : String) : Bool :=
  matchedKey E P k && (decide (x = k) || decide (x = cleanKeyOf P k))

/-- The last key of `ks` that writes slot `x`, starting from candidate `w`. -/
def lastWriterFrom (E : JSObj) (P : List String) (x : String)
    (ks : List String) (w : Option String) : Option String :=
  ks.foldl (fun acc k => if writesTo E P k x then some k else acc) w

/-- No two distinct matching ambient keys produce interfering output names:
the cleaned name of a matching key never coincides with another matching
key, and cleaning is injective on matching keys. -/
def collisionFree (env : JSObj) (cp : Option String) : Prop :=
  ∀ k ∈ jsKeys env, ∀ k' ∈ jsKeys env,
    matchedKey env (activePrefixes cp) k = true →
    matchedKey env (activePrefixes cp) k' = true →
    cleanKeyOf (activePrefixes cp) k' ≠ k ∧
      (cleanKeyOf (activePrefixes cp) k' = cleanKeyOf (activePrefixes cp) k → k' = k)

/-- The ambient map of end-to-end scenario 1 of the specification. -/
def envScenario1 : JSObj :=
  [("REACT_APP_API_URL", some "https://x"), ("OTHER", some "y")]

/-- The cleaning rule as the specification words it: remove exactly the
portion matching the FIRST matching value of the active list, and nothing
else.  This definition follows the claim's wording and is compared with
the source's `cleanKeyOf`. -/
def specStripFirst (P : List String) (k : String) : String :=
  match P.find? (fun q => startsWithS k q) with
  | some q => dropS k (lenS q)
  | none => k

/-- Options of `useEnv` (lines 8-12 of the source).  `prefixOpt` models
the optional member overriding the default prefix list. -/
structure UseEnvOptions where
  prefixOpt : Option String := none
  required : List String := []
  fallbacks : List (String × String) := []

/-- The module-level mutable state of lines 15-16: the cached mapping and
the in-progress flag. -/
structure ModuleState where
  envCache : Option JSObj
  isLoading : Bool

/-- Result of one `useEnv` invocation: the mapping returned by the initial
render (lines 56-60), the mapping exposed once the deferred effect pass
has run (line 95, or the initial one when the pass is skipped or fails),
the component's error string, and the module state afterwards. -/
structure UseEnvOutcome where
  initialVars : JSObj
  finalVars : JSObj
  error : Option String
  state : ModuleState

/-- The fallback merge of lines 71-77: a fallback is copied in only when
the slot currently reads as undefined. -/
def applyFallbacks (vars : JSObj) (fallbacks : List (String × String)) : JSObj :=
  fallbacks.foldl
    (fun acc kv => if jsGet acc kv.1 = none then jsSet acc kv.1 (some kv.2) else acc) vars

/-- The required filter of lines 80-82: a required key is missing when the
merged mapping reads undefined or the empty string at it. -/
def missingVars (vars : JSObj) (required : List String) : List String :=
  required.filter (fun k => jsGet vars k == none || jsGet vars k == some "")

/-- JavaScript `missingVars.join(', ')` (line 87). -/
def joinComma : List String → String
  | [] => ""
  | [x] => x
  | x :: xs => x ++ ", " ++ joinComma xs

/-- Line 85: the hint is the caller-supplied value when truthy, otherwise
the fixed default text. -/
def prefixHint (customPrefix : Option String) : String :=
  match customPrefix with
  | some p => if p = "" then "REACT_APP_/NEXT_PUBLIC_/VITE_" else p
  | none => "REACT_APP_/NEXT_PUBLIC_/VITE_"

/-- The diagnostic string of lines 86-89. -/
def diagnosticMessage (missing : List String) (hint : String) : String :=
  "Missing required environment variables: " ++ joinComma missing ++
    ". Make sure they are prefixed with " ++ hint ++ " in your .env file."

/-- The effect pass of lines 64-103.  `scanResult` is the outcome of the
`getAllEnvVars` call inside the `try` (line 69); `Except.error` models a
thrown JavaScript exception, caught on lines 97-99 and reported only
through the error string, with the cache untouched.  `initialVars` is the
value produced by the `useState` initializer.  The guard mirrors
`!envCache && !isLoading` (line 65); the `finally` of line 100 leaves the
flag cleared on both paths. -/
def useEnvGo (scanResult : Except String JSObj) (initialVars : JSObj)
    (opts : UseEnvOptions) (st : ModuleState) : UseEnvOutcome :=
  if st.envCache = none ∧ st.isLoading = false then
    match scanResult with
    | Except.ok vars =>
      let varsWithFallbacks := applyFallbacks vars opts.fallbacks
      let missing := missingVars varsWithFallbacks opts.required
      { initialVars := initialVars
        finalVars := varsWithFallbacks
        error :=
          if missing.length > 0 then
            some (diagnosticMessage missing (prefixHint opts.prefixOpt))
          else none
        state := { envCache := some varsWithFallbacks, isLoading := false } }
    | Except.error e =>
      { initialVars := initialVars
        finalVars := initialVars
        error := some ("Failed to load environment variables: " ++ e)
        state := { envCache := st.envCache, isLoading := false } }
  else
    { initialVars := initialVars, finalVars := initialVars, error := none, state := st }

/-- `useEnv` (lines 53-111): the initial value comes from the cache when
one exists, else from a synchronous resolution; the deferred pass then
runs with a successful scan of the same ambient map. -/
def useEnv (isBrowser : Bool) (env : JSObj) (opts : UseEnvOptions)
    (st : ModuleState) : UseEnvOutcome :=
  useEnvGo (Except.ok (getAllEnvVars isBrowser env opts.prefixOpt))
    (match st.envCache with
     | some c => c
     | none => getAllEnvVars isBrowser env opts.prefixOpt)
    opts st

/-- `useEnvVar` (lines 114-117): reads the bulk accessor's mapping at one
key, with `??`-style fallback. -/
def useEnvVar (isBrowser : Bool) (env : JSObj) (key : String)
    (fallback : Option String) (st : ModuleState) : Option String × ModuleState :=
  match jsGet (useEnv isBrowser env {} st).finalVars key with
  | some v => (some v, (useEnv isBrowser env {} st).state)
  | none => (fallback, (useEnv isBrowser env {} st).state)

/-- `clearEnvCache` (lines 120-122): sets the cache to null and nothing
else. -/
def clearEnvCache (st : ModuleState) : ModuleState := { st with envCache := none }

/-- One string occurs inside another; used to state that the diagnostic
hint names the active prefixes. -/
def strContains (hay sub : String) : Prop :=
  ∃ l r, hay.data = l ++ sub.data ++ r

@[simp] theorem jsGet_nil (k : String) : jsGet [] k = none := rfl

theorem jsGet_cons (kv : String × Option String) (o : JSObj) (k : String) :
    jsGet (kv :: o) k = if kv.1 = k then kv.2 else jsGet o k := rfl

theorem jsHas_cons (kv : String × Option String) (o : JSObj) (k : String) :
    jsHas (kv :: o) k = if kv.1 = k then true else jsHas o k := rfl

theorem jsGet_map_ne (o : JSObj) (k : String) (v : Option String) (x : String)
    (hx : x ≠ k) :
    jsGet (o.map (fun kv => if kv.1 = k then (k, v) else kv)) x = jsGet o x := by
  induction o with
  | nil => rfl
  | cons kv o ih =>
    by_cases h : kv.1 = k
    · have hkx : ¬ (k = x) := fun h' => hx h'.symm
      simp [h, jsGet_cons, hkx, ih]
    · simp only [List.map_cons, h, if_false]
      rw [jsGet_cons, jsGet_cons, ih]

theorem jsGet_map_self (o : JSObj) (k : String) (v : Option String)
    (h : jsHas o k = true) :
    jsGet (o.map (fun kv => if kv.1 = k then (k, v) else kv)) k = v := by
  induction o with
  | nil => simp [jsHas] at h
  | cons kv o ih =>
    by_cases hk : kv.1 = k
    · simp [hk, jsGet_cons]
    · rw [jsHas_cons] at h
      simp only [hk, if_false] at h
      simp only [List.map_cons, hk, if_false]
      rw [jsGet_cons, ih h]
      simp [hk]

theorem jsGet_append_single_ne (o : JSObj) (k : String) (v : Option String) (x : String)
    (hx : x ≠ k) :
    jsGet (o ++ [(k, v)]) x = jsGet o x := by
  induction o with
  | nil =>
    have hkx : ¬ (k = x) := fun h => hx h.symm
    simp [jsGet_cons, hkx]
  | cons kv o ih =>
    rw [List.cons_append, jsGet_cons, jsGet_cons, ih]

theorem jsGet_append_single_self (o : JSObj) (k : String) (v : Option String)
    (h : jsHas o k = false) :
    jsGet (o ++ [(k, v)]) k = v := by
  induction o with
  | nil => simp [jsGet_cons]
  | cons kv o ih =>
    rw [jsHas_cons] at h
    by_cases hk : kv.1 = k
    · simp [hk] at h
    · simp only [hk, if_false] at h
      rw [List.cons_append, jsGet_cons]
      simp [hk, ih h]

theorem jsGet_jsSet (o : JSObj) (k : String) (v : Option String) (x : String) :
    jsGet (jsSet o k v) x = if x = k then v else jsGet o x := by
  unfold jsSet
  by_cases hmem : jsHas o k = true
  · simp only [hmem, if_true]
    by_cases hx : x = k
    · subst hx; rw [jsGet_map_self o x v hmem]; simp
    · rw [jsGet_map_ne o k v x hx]; simp [hx]
  · have hmem' : jsHas o k = false := by
      cases h : jsHas o k
      · rfl
      · exact absurd h hmem
    simp only [hmem', Bool.false_eq_true, if_false]
    by_cases hx : x = k
    · subst hx; rw [jsGet_append_single_self o x v hmem']; simp
    · rw [jsGet_append_single_ne o k v x hx]; simp [hx]

theorem jsHas_iff_mem_jsKeys (o : JSObj) (x : String) :
    jsHas o x = true ↔ x ∈ jsKeys o := by
  induction o with
  | nil => simp [jsHas, jsKeys]
  | cons kv o ih =>
    rw [jsHas_cons]
    by_cases h : kv.1 = x
    · simp [h, jsKeys]
    · have h' : ¬ (x = kv.1) := fun hh => h hh.symm
      simp only [h, if_false, jsKeys, List.map_cons, List.mem_cons]
      rw [show (o.map Prod.fst) = jsKeys o from rfl, ← ih]
      simp [h']

theorem jsGet_resolveStep (E : JSObj) (P : List String) (acc : JSObj) (key x : String) :
    jsGet (resolveStep E P acc key) x =
      if writesTo E P key x then jsGet E key else jsGet acc x := by
  unfold resolveStep writesTo matchedKey
  cases h : jsGet E key with
  | none => simp [h]
  | some v =>
    simp only [h, Option.isSome_some, Bool.true_and]
    cases hp : P.any (fun p => startsWithS key p) with
    | false => simp
    | true =>
      simp only [Bool.true_and, if_true]
      rw [jsGet_jsSet, jsGet_jsSet]
      by_cases h1 : x = key
      · simp [h1]
      · by_cases h2 : x = cleanKeyOf P key
        · simp [h1, h2, h]
        · simp [h1, h2]

theorem lastWriterFrom_cons (E : JSObj) (P : List String) (x k : String)
    (ks : List String) (w : Option String) :
    lastWriterFrom E P x (k :: ks) w =
      lastWriterFrom E P x ks (if writesTo E P k x then some k else w) := rfl

theorem lastWriterFrom_shift (E : JSObj) (P : List String) (x : String)
    (ks : List String) :
    ∀ w, lastWriterFrom E P x ks w =
      match lastWriterFrom E P x ks none with
      | some k => some k
      | none => w := by
  induction ks with
  | nil => intro w; rfl
  | cons k ks ih =>
    intro w
    rw [lastWriterFrom_cons, lastWriterFrom_cons]
    by_cases hw : writesTo E P k x = true
    · rw [if_pos hw, if_pos hw, ih (some k)]
      cases hc : lastWriterFrom E P x ks none <;> simp
    · rw [if_neg hw, if_neg hw, ih w, ih none]

theorem lastWriterFrom_of_some (E : JSObj) (P : List String) (x k : String)
    (ks : List String) (h : lastWriterFrom E P x ks none = some k) (w : Option String) :
    lastWriterFrom E P x ks w = some k := by
  rw [lastWriterFrom_shift, h]

theorem lastWriterFrom_of_none (E : JSObj) (P : List String) (x : String)
    (ks : List String) (h : lastWriterFrom E P x ks none = none) (w : Option String) :
    lastWriterFrom E P x ks w = w := by
  rw [lastWriterFrom_shift, h]

theorem lastWriterFrom_mem (E : JSObj) (P : List String) (x k : String)
    (ks : List String) (h : lastWriterFrom E P x ks none = some k) :
    k ∈ ks ∧ writesTo E P k x = true := by
  induction ks with
  | nil => exact absurd h (by simp [lastWriterFrom])
  | cons k₀ ks ih =>
    rw [lastWriterFrom_cons] at h
    cases hc : lastWriterFrom E P x ks none with
    | some k' =>
      rw [lastWriterFrom_of_some E P x k' ks hc] at h
      obtain rfl : k' = k := by injection h
      obtain ⟨hm, hw⟩ := ih hc
      exact ⟨List.mem_cons_of_mem _ hm, hw⟩
    | none =>
      rw [lastWriterFrom_of_none E P x ks hc] at h
      by_cases hw : writesTo E P k₀ x = true
      · rw [if_pos hw] at h
        obtain rfl : k₀ = k := by injection h
        exact ⟨List.mem_cons_self .., hw⟩
      · rw [if_neg hw] at h
        exact absurd h (by simp)

theorem lastWriterFrom_eq_none_iff (E : JSObj) (P : List String) (x : String)
    (ks : List String) :
    lastWriterFrom E P x ks none = none ↔ ∀ k ∈ ks, writesTo E P k x = false := by
  induction ks with
  | nil => simp [lastWriterFrom]
  | cons k₀ ks ih =>
    rw [lastWriterFrom_cons]
    cases hc : lastWriterFrom E P x ks none with
    | some k' =>
      rw [lastWriterFrom_of_some E P x k' ks hc]
      constructor
      · intro h; exact absurd h (by simp)
      · intro h
        obtain ⟨hm, hw⟩ := lastWriterFrom_mem E P x k' ks hc
        exact absurd (hw.symm.trans (h k' (List.mem_cons_of_mem _ hm))) (by simp)
    | none =>
      rw [lastWriterFrom_of_none E P x ks hc]
      by_cases hw : writesTo E P k₀ x = true
      · rw [if_pos hw]
        constructor
        · intro h; exact absurd h (by simp)
        · intro h
          exact absurd (hw.symm.trans (h k₀ (List.mem_cons_self ..))) (by simp)
      · have hw' : writesTo E P k₀ x = false := by
          cases hval : writesTo E P k₀ x
          · rfl
          · exact absurd hval hw
        rw [if_neg hw]
        constructor
        · intro _ k' hk'
          rcases List.mem_cons.1 hk' with h | h
          · rw [h]; exact hw'
          · exact (ih.1 hc) k' h
        · intro _; rfl

theorem lastWriterFrom_unique (E : JSObj) (P : List String) (x k : String)
    (ks : List String) (hk : k ∈ ks) (hw : writesTo E P k x = true)
    (hu : ∀ k' ∈ ks, writesTo E P k' x = true → k' = k) :
    lastWriterFrom E P x ks none = some k := by
  cases hc : lastWriterFrom E P x ks none with
  | none =>
    have := (lastWriterFrom_eq_none_iff E P x ks).1 hc k hk
    exact absurd (hw.symm.trans this) (by simp)
  | some k' =>
    obtain ⟨hm, hw'⟩ := lastWriterFrom_mem E P x k' ks hc
    rw [hu k' hm hw']

theorem jsGet_resolveGo (E : JSObj) (P : List String) (x : String) :
    ∀ (ks : List String) (acc : JSObj),
      jsGet (resolveGo E P ks acc) x =
        match lastWriterFrom E P x ks none with
        | some k => jsGet E k
        | none => jsGet acc x := by
  intro ks
  induction ks with
  | nil => intro acc; rfl
  | cons k ks ih =>
    intro acc
    have hgo : resolveGo E P (k :: ks) acc = resolveGo E P ks (resolveStep E P acc k) := rfl
    rw [hgo, ih, lastWriterFrom_cons]
    cases hc : lastWriterFrom E P x ks none with
    | some k' => rw [lastWriterFrom_of_some E P x k' ks hc]
    | none =>
      rw [lastWriterFrom_of_none E P x ks hc, jsGet_resolveStep]
      by_cases hw : writesTo E P k x = true
      · rw [if_pos hw, if_pos hw]
      · rw [if_neg hw, if_neg hw]

theorem writesTo_isSome (E : JSObj) (P : List String) (k x : String)
    (hw : writesTo E P k x = true) : (jsGet E k).isSome = true := by
  unfold writesTo matchedKey at hw
  rw [Bool.and_eq_true, Bool.and_eq_true] at hw
  exact hw.1.1

theorem writesTo_iff (E : JSObj) (P : List String) (k x : String) :
    writesTo E P k x = true ↔
      matchedKey E P k = true ∧ (x = k ∨ x = cleanKeyOf P k) := by
  unfold writesTo
  rw [Bool.and_eq_true, Bool.or_eq_true]
  simp only [decide_eq_true_eq]

theorem jsGet_getAllEnvVars_true (env : JSObj) (cp : Option String) (x : String) :
    jsGet (getAllEnvVars true env cp) x =
      match lastWriterFrom env (activePrefixes cp) x (jsKeys env) none with
      | some k => jsGet env k
      | none => none := by
  unfold getAllEnvVars
  rw [if_pos rfl, jsGet_resolveGo]
  cases lastWriterFrom env (activePrefixes cp) x (jsKeys env) none <;> rfl

theorem values_isSome_jsSet (o : JSObj) (k : String) (v : String)
    (h : ∀ kv ∈ o, (kv.2).isSome = true) :
    ∀ kv ∈ jsSet o k (some v), (kv.2).isSome = true := by
  unfold jsSet
  by_cases hmem : jsHas o k = true
  · simp only [hmem, if_true]
    intro kv hkv
    obtain ⟨kv₀, hkv₀, heq⟩ := List.mem_map.1 hkv
    by_cases h0 : kv₀.1 = k
    · rw [if_pos h0] at heq
      rw [← heq]
      rfl
    · rw [if_neg h0] at heq
      rw [← heq]
      exact h kv₀ hkv₀
  · have hmem' : jsHas o k = false := by
      cases hval : jsHas o k
      · rfl
      · exact absurd hval hmem
    simp only [hmem', Bool.false_eq_true, if_false]
    intro kv hkv
    rcases List.mem_append.1 hkv with hin | hin
    · exact h kv hin
    · rw [List.mem_singleton.1 hin]
      rfl

theorem values_isSome_resolveStep (E : JSObj) (P : List String) (acc : JSObj) (key : String)
    (h : ∀ kv ∈ acc, (kv.2).isSome = true) :
    ∀ kv ∈ resolveStep E P acc key, (kv.2).isSome = true := by
  unfold resolveStep
  cases hv : jsGet E key with
  | none => exact h
  | some v =>
    dsimp only
    by_cases hp : (P.any fun p => startsWithS key p) = true
    · rw [if_pos hp]
      exact values_isSome_jsSet _ key v (values_isSome_jsSet _ (cleanKeyOf P key) v h)
    · rw [if_neg hp]
      exact h

theorem values_isSome_resolveGo (E : JSObj) (P : List String) :
    ∀ (ks : List String) (acc : JSObj),
      (∀ kv ∈ acc, (kv.2).isSome = true) →
      ∀ kv ∈ resolveGo E P ks acc, (kv.2).isSome = true := by
  intro ks
  induction ks with
  | nil => intro acc h; exact h
  | cons k ks ih =>
    intro acc h
    exact ih (resolveStep E P acc k) (values_isSome_resolveStep E P acc k h)

theorem mem_jsKeys_iff_isSome (o : JSObj) (h : ∀ kv ∈ o, (kv.2).isSome = true) (x : String) :
    x ∈ jsKeys o ↔ (jsGet o x).isSome = true := by
  induction o with
  | nil => simp [jsKeys]
  | cons kv o ih =>
    rw [jsGet_cons]
    by_cases hk : kv.1 = x
    · simp only [jsKeys, List.map_cons, List.mem_cons, hk, if_true]
      constructor
      · intro _; exact h kv (List.mem_cons_self ..)
      · intro _; exact Or.inl trivial
    · have h' : ∀ kv ∈ o, (kv.2).isSome = true := fun kv hkv => h kv (List.mem_cons_of_mem _ hkv)
      have hne : ¬ (x = kv.1) := fun hh => hk hh.symm
      simp only [jsKeys, List.map_cons, List.mem_cons, hk, if_false]
      rw [show (o.map Prod.fst) = jsKeys o from rfl]
      rw [← ih h']
      simp [hne]

theorem mem_jsKeys_getAllEnvVars_true (env : JSObj) (cp : Option String) (x : String) :
    x ∈ jsKeys (getAllEnvVars true env cp) ↔
      ∃ k, k ∈ jsKeys env ∧ writesTo env (activePrefixes cp) k x = true := by
  have hval : ∀ kv ∈ getAllEnvVars true env cp, (kv.2).isSome = true := by
    unfold getAllEnvVars
    rw [if_pos rfl]
    exact values_isSome_resolveGo env (activePrefixes cp) (jsKeys env) [] (by simp)
  rw [mem_jsKeys_iff_isSome _ hval, jsGet_getAllEnvVars_true]
  cases hc : lastWriterFrom env (activePrefixes cp) x (jsKeys env) none with
  | some k =>
    obtain ⟨hm, hw⟩ := lastWriterFrom_mem env (activePrefixes cp) x k (jsKeys env) hc
    have hsome := writesTo_isSome env (activePrefixes cp) k x hw
    constructor
    · intro _; exact ⟨k, hm, hw⟩
    · intro _; exact hsome
  | none =>
    have hnone := (lastWriterFrom_eq_none_iff env (activePrefixes cp) x (jsKeys env)).1 hc
    constructor
    · intro h; exact absurd h (by simp)
    · rintro ⟨k, hm, hw⟩
      exact absurd ((hnone k hm).symm.trans hw) (by simp)

theorem lenS_dropS (s : String) (n : Nat) : lenS (dropS s n) = lenS s - n := by
  simp [lenS, dropS]

theorem cleanKeyOf_cons (p : String) (P : List String) (k : String) :
    cleanKeyOf (p :: P) k =
      cleanKeyOf P (if startsWithS k p then dropS k (lenS p) else k) := rfl

theorem lenS_cleanKeyOf_le (P : List String) (k : String) :
    lenS (cleanKeyOf P k) ≤ lenS k := by
  induction P generalizing k with
  | nil => exact Nat.le_refl _
  | cons p P ih =>
    rw [cleanKeyOf_cons]
    by_cases hs : startsWithS k p = true
    · rw [if_pos hs]
      refine Nat.le_trans (ih _) ?_
      rw [lenS_dropS]
      exact Nat.sub_le _ _
    · rw [if_neg hs]
      exact ih k

theorem lenS_pos_of_ne_empty (p : String) (hp : p ≠ "") : 0 < lenS p := by
  cases hd : p.data with
  | nil =>
    exfalso
    apply hp
    have h1 : p = String.mk p.data := rfl
    rw [h1, hd]
  | cons c cs => simp [lenS, hd]

theorem startsWithS_lenS_le (k p : String) (h : startsWithS k p = true) :
    lenS p ≤ lenS k := by
  unfold startsWithS at h
  have := List.isPrefixOf_iff_prefix.1 h
  exact this.length_le

theorem cleanKeyOf_lenS_lt (P : List String) (k : String)
    (hne : ∀ q ∈ P, q ≠ "")
    (h : P.any (fun q => startsWithS k q) = true) :
    lenS (cleanKeyOf P k) < lenS k := by
  induction P generalizing k with
  | nil => simp at h
  | cons p P ih =>
    rw [cleanKeyOf_cons]
    by_cases hs : startsWithS k p = true
    · rw [if_pos hs]
      have hplen : 0 < lenS p := lenS_pos_of_ne_empty p (hne p (List.mem_cons_self ..))
      have hklen : 0 < lenS k := Nat.lt_of_lt_of_le hplen (startsWithS_lenS_le k p hs)
      have hdrop : lenS (dropS k (lenS p)) < lenS k := by
        rw [lenS_dropS]
        exact Nat.sub_lt hklen hplen
      exact Nat.lt_of_le_of_lt (lenS_cleanKeyOf_le P _) hdrop
    · rw [if_neg hs]
      simp only [List.any_cons, Bool.or_eq_true] at h
      rcases h with h1 | h1
      · exact absurd h1 hs
      · exact ih k (fun q hq => hne q (List.mem_cons_of_mem _ hq)) h1

theorem cleanKeyOf_ne_self (P : List String) (k : String)
    (hne : ∀ q ∈ P, q ≠ "")
    (h : P.any (fun q => startsWithS k q) = true) :
    cleanKeyOf P k ≠ k := by
  intro heq
  have := cleanKeyOf_lenS_lt P k hne h
  rw [heq] at this
  exact Nat.lt_irrefl _ this

theorem activePrefixes_ne_empty (cp : Option String) :
    ∀ q ∈ activePrefixes cp, q ≠ "" := by
  have hdef : ∀ q ∈ defaultPrefixes, q ≠ "" := by
    intro q hq
    fin_cases hq <;> decide
  cases cp with
  | none => exact hdef
  | some p =>
    by_cases hp : p = ""
    · subst hp
      intro q hq
      simp only [activePrefixes, if_pos rfl] at hq
      exact hdef q hq
    · intro q hq
      simp only [activePrefixes] at hq
      rw [if_neg hp, List.mem_singleton] at hq
      rw [hq]
      exact hp

theorem matchedKey_any (E : JSObj) (P : List String) (k : String)
    (h : matchedKey E P k = true) :
    P.any (fun q => startsWithS k q) = true := by
  unfold matchedKey at h
  exact ((Bool.and_eq_true _ _).mp h).2

theorem cleanKeyOf_ne_of_matched (env : JSObj) (cp : Option String) (k : String)
    (h : matchedKey env (activePrefixes cp) k = true) :
    cleanKeyOf (activePrefixes cp) k ≠ k :=
  cleanKeyOf_ne_self (activePrefixes cp) k (activePrefixes_ne_empty cp) (matchedKey_any env _ k h)

/-- Claim C1 (amended).  In the non-browser context the Resolver returns
the ambient map unchanged.  In the browser context the output keys are
exactly the original and cleaned names of the ambient keys that have a
defined value and start with an active prefix; and provided no two
matching keys produce colliding names, every matching key appears under
both its original and its cleaned name bound to its unchanged value.
(The unamended claim fails for bindings whose value is literally
undefined and under name collisions; see the counterexample.) -/
theorem resolver_output_exact (env : JSObj) (cp : Option String)
    (hcf : collisionFree env cp) :
    getAllEnvVars false env cp = env
    ∧ (∀ x, x ∈ jsKeys (getAllEnvVars true env cp) ↔
        ∃ k, k ∈ jsKeys env ∧ matchedKey env (activePrefixes cp) k = true ∧
          (x = k ∨ x = cleanKeyOf (activePrefixes cp) k))
    ∧ (∀ k, k ∈ jsKeys env → matchedKey env (activePrefixes cp) k = true →
        jsGet (getAllEnvVars true env cp) k = jsGet env k ∧
        jsGet (getAllEnvVars true env cp) (cleanKeyOf (activePrefixes cp) k)
          = jsGet env k) := by
  refine ⟨rfl, ?_, ?_⟩
  · intro x
    rw [mem_jsKeys_getAllEnvVars_true]
    constructor
    · rintro ⟨k, hm, hw⟩
      obtain ⟨hmk, hx⟩ := (writesTo_iff env (activePrefixes cp) k x).1 hw
      exact ⟨k, hm, hmk, hx⟩
    · rintro ⟨k, hm, hmk, hx⟩
      exact ⟨k, hm, (writesTo_iff env (activePrefixes cp) k x).2 ⟨hmk, hx⟩⟩
  · intro k hm hmk
    have hwk : writesTo env (activePrefixes cp) k k = true :=
      (writesTo_iff env (activePrefixes cp) k k).2 ⟨hmk, Or.inl rfl⟩
    have hwc : writesTo env (activePrefixes cp) k (cleanKeyOf (activePrefixes cp) k) = true :=
      (writesTo_iff env (activePrefixes cp) k _).2 ⟨hmk, Or.inr rfl⟩
    have hu1 : ∀ k' ∈ jsKeys env, writesTo env (activePrefixes cp) k' k = true → k' = k := by
      intro k' hm' hw'
      obtain ⟨hmk', hx'⟩ := (writesTo_iff env (activePrefixes cp) k' k).1 hw'
      rcases hx' with h | h
      · exact h.symm
      · exact absurd h.symm (hcf k hm k' hm' hmk hmk').1
    have hu2 : ∀ k' ∈ jsKeys env,
        writesTo env (activePrefixes cp) k' (cleanKeyOf (activePrefixes cp) k) = true →
        k' = k := by
      intro k' hm' hw'
      obtain ⟨hmk', hx'⟩ :=
        (writesTo_iff env (activePrefixes cp) k' (cleanKeyOf (activePrefixes cp) k)).1 hw'
      rcases hx' with h | h
      · exact absurd h (hcf k' hm' k hm hmk' hmk).1
      · exact (hcf k hm k' hm' hmk hmk').2 h.symm
    have hlw1 := lastWriterFrom_unique env (activePrefixes cp) k k (jsKeys env) hm hwk hu1
    have hlw2 := lastWriterFrom_unique env (activePrefixes cp)
      (cleanKeyOf (activePrefixes cp) k) k (jsKeys env) hm hwc hu2
    constructor
    · rw [jsGet_getAllEnvVars_true, hlw1]
    · rw [jsGet_getAllEnvVars_true, hlw2]

/-- Claim C1 counterexample.  First input: the ambient binding
`REACT_APP_A ↦ undefined` starts with an active prefix, yet the browser
output is empty, so the output does not contain every ambient key that
starts with a prefix.  Second input: with `REACT_APP_X ↦ "a"` and
`VITE_X ↦ "b"` both cleaning to `X`, the slot `X` holds `"b"`, not the
unchanged value `"a"` of `REACT_APP_X`. -/
theorem resolver_output_exact_cex :
    ("REACT_APP_A" ∈ jsKeys [(("REACT_APP_A" : String), (none : Option String))]
      ∧ getAllEnvVars true [(("REACT_APP_A" : String), (none : Option String))] none = [])
    ∧ jsGet (getAllEnvVars true
        [(("REACT_APP_X" : String), some "a"), (("VITE_X" : String), some "b")] none) "X"
        = some "b" := by
  refine ⟨⟨?_, ?_⟩, ?_⟩ <;> decide

/-- Witness for claim C1 at end-to-end scenario 1 of the specification. -/
theorem resolver_output_exact_witness :
    jsGet (getAllEnvVars true envScenario1 none) "REACT_APP_API_URL"
        = jsGet envScenario1 "REACT_APP_API_URL"
    ∧ jsGet (getAllEnvVars true envScenario1 none)
        (cleanKeyOf (activePrefixes none) "REACT_APP_API_URL")
        = jsGet envScenario1 "REACT_APP_API_URL" := by
  have h := resolver_output_exact envScenario1 none (by unfold collisionFree; decide)
  exact h.2.2 "REACT_APP_API_URL" (by decide) (by decide)

theorem cleanKeyOf_no_match (P : List String) (k : String)
    (h : ∀ q ∈ P, startsWithS k q = false) : cleanKeyOf P k = k := by
  induction P with
  | nil => rfl
  | cons q P ih =>
    have h0 : ¬ (startsWithS k q = true) := by
      rw [h q (List.mem_cons_self ..)]
      exact Bool.false_ne_true
    rw [cleanKeyOf_cons, if_neg h0]
    exact ih (fun q' hq' => h q' (List.mem_cons_of_mem _ hq'))

theorem specStripFirst_eq (P₁ P₂ : List String) (p k : String)
    (h₁ : ∀ q ∈ P₁, startsWithS k q = false)
    (h₂ : startsWithS k p = true) :
    specStripFirst (P₁ ++ p :: P₂) k = dropS k (lenS p) := by
  induction P₁ with
  | nil =>
    unfold specStripFirst
    rw [List.nil_append, List.find?_cons_of_pos _ h₂]
  | cons q P₁ ih =>
    have hq : ¬ ((fun q => startsWithS k q) q = true) := by
      show ¬ (startsWithS k q = true)
      rw [h₁ q (List.mem_cons_self ..)]
      exact Bool.false_ne_true
    have hrest := ih (fun q' hq' => h₁ q' (List.mem_cons_of_mem _ hq'))
    unfold specStripFirst at hrest
    unfold specStripFirst
    rw [List.cons_append, List.find?_cons_of_neg _ hq]
    exact hrest

/-- Claim C2 (amended).  The Resolver's cleaned key is computed by folding
over the active prefix list in declared order, stripping every listed
value that the current partially-stripped key starts with; when the
remainder after removing the first matching value starts with no later
value of the list, this coincides with removing exactly the first
matching portion, as the claim states.  (Without that proviso the fold
can strip several portions; see the counterexample.) -/
theorem cleanKey_first_match (P₁ P₂ : List String) (p k : String)
    (h₁ : ∀ q ∈ P₁, startsWithS k q = false)
    (h₂ : startsWithS k p = true)
    (h₃ : ∀ q ∈ P₂, startsWithS (dropS k (lenS p)) q = false) :
    cleanKeyOf (P₁ ++ p :: P₂) k = dropS k (lenS p)
    ∧ cleanKeyOf (P₁ ++ p :: P₂) k = specStripFirst (P₁ ++ p :: P₂) k := by
  have hfold : cleanKeyOf (P₁ ++ p :: P₂) k = cleanKeyOf (p :: P₂) (cleanKeyOf P₁ k) := by
    unfold cleanKeyOf
    rw [List.foldl_append]
  have hid : cleanKeyOf P₁ k = k := cleanKeyOf_no_match P₁ k h₁
  have hstep : cleanKeyOf (p :: P₂) k = cleanKeyOf P₂ (dropS k (lenS p)) := by
    rw [cleanKeyOf_cons, if_pos h₂]
  have hid2 : cleanKeyOf P₂ (dropS k (lenS p)) = dropS k (lenS p) :=
    cleanKeyOf_no_match P₂ _ h₃
  have hmain : cleanKeyOf (P₁ ++ p :: P₂) k = dropS k (lenS p) := by
    rw [hfold, hid, hstep, hid2]
  refine ⟨hmain, ?_⟩
  rw [hmain, specStripFirst_eq P₁ P₂ p k h₁ h₂]

/-- Claim C2 counterexample.  For the ambient key `REACT_APP_VITE_X` the
first matching default prefix is `REACT_APP_`, so the claim demands the
cleaned key `VITE_X`; the code's fold strips `VITE_` as well and produces
`X`, and the Resolver's output for that single-key map binds `X`, not
`VITE_X`. -/
theorem cleanKey_first_match_cex :
    cleanKeyOf defaultPrefixes "REACT_APP_VITE_X" = "X"
    ∧ specStripFirst defaultPrefixes "REACT_APP_VITE_X" = "VITE_X"
    ∧ jsGet (getAllEnvVars true [(("REACT_APP_VITE_X" : String), some "v")] none) "VITE_X"
        = none
    ∧ jsGet (getAllEnvVars true [(("REACT_APP_VITE_X" : String), some "v")] none) "X"
        = some "v" := by
  refine ⟨?_, ?_, ?_, ?_⟩ <;> decide

/-- Witness for claim C2: for `NEXT_PUBLIC_FOO` under the default list the
fold agrees with first-match stripping. -/
theorem cleanKey_first_match_witness :
    cleanKeyOf (["REACT_APP_"] ++ "NEXT_PUBLIC_" :: ["VITE_", "PUBLIC_"]) "NEXT_PUBLIC_FOO"
      = dropS "NEXT_PUBLIC_FOO" (lenS "NEXT_PUBLIC_")
    ∧ cleanKeyOf (["REACT_APP_"] ++ "NEXT_PUBLIC_" :: ["VITE_", "PUBLIC_"]) "NEXT_PUBLIC_FOO"
      = specStripFirst (["REACT_APP_"] ++ "NEXT_PUBLIC_" :: ["VITE_", "PUBLIC_"])
          "NEXT_PUBLIC_FOO" :=
  cleanKey_first_match ["REACT_APP_"] ["VITE_", "PUBLIC_"] "NEXT_PUBLIC_" "NEXT_PUBLIC_FOO"
    (by decide) (by decide) (by decide)

theorem jsGet_middle_skip (o₁ o₂ : JSObj) (k : String) (v : Option String) (x : String)
    (hx : x ≠ k) :
    jsGet (o₁ ++ (k, v) :: o₂) x = jsGet (o₁ ++ o₂) x := by
  induction o₁ with
  | nil =>
    rw [List.nil_append, List.nil_append, jsGet_cons]
    have hkx : ¬ (k = x) := fun h => hx h.symm
    simp [hkx]
  | cons kv o₁ ih =>
    rw [List.cons_append, List.cons_append, jsGet_cons, jsGet_cons, ih]

theorem jsGet_append_cons_self (o₁ o₂ : JSObj) (k : String) (v : Option String)
    (h : k ∉ jsKeys o₁) :
    jsGet (o₁ ++ (k, v) :: o₂) k = v := by
  induction o₁ with
  | nil => simp [jsGet_cons]
  | cons kv o₁ ih =>
    have hkv : kv.1 ≠ k := by
      intro he
      exact h (by rw [← he]; exact List.mem_cons_self ..)
    rw [List.cons_append, jsGet_cons, if_neg hkv]
    exact ih (fun hm => h (List.mem_cons_of_mem _ hm))

theorem resolveGo_congr (E E' : JSObj) (P : List String) :
    ∀ (ks : List String) (acc : JSObj),
      (∀ key ∈ ks, jsGet E key = jsGet E' key) →
      resolveGo E P ks acc = resolveGo E' P ks acc := by
  intro ks
  induction ks with
  | nil => intro acc _; rfl
  | cons k ks ih =>
    intro acc h
    have hstep : resolveStep E P acc k = resolveStep E' P acc k := by
      unfold resolveStep
      rw [h k (List.mem_cons_self ..)]
    show resolveGo E P ks (resolveStep E P acc k) = resolveGo E' P ks (resolveStep E' P acc k)
    rw [hstep]
    exact ih _ (fun key hk => h key (List.mem_cons_of_mem _ hk))

/-- Claim C9 (amended).  In the browser context (1) a binding whose value
is literally undefined contributes nothing: deleting it from the ambient
map leaves the Resolver's output unchanged (its name may still occur in
the output through another key's cleaned name); and (2) an ambient key
matching an active prefix with empty-string value is retained with value
`""` provided no other matching ambient key's cleaned name collides with
it.  (The unamended claim fails on both counts under collisions; see the
counterexample.) -/
theorem resolver_undefined_excluded_empty_retained (cp : Option String) :
    (∀ (l₁ l₂ : JSObj) (k : String),
        (jsKeys (l₁ ++ (k, (none : Option String)) :: l₂)).Nodup →
        getAllEnvVars true (l₁ ++ (k, none) :: l₂) cp = getAllEnvVars true (l₁ ++ l₂) cp)
    ∧ (∀ (env : JSObj) (k : String),
        k ∈ jsKeys env →
        jsGet env k = some "" →
        (activePrefixes cp).any (fun q => startsWithS k q) = true →
        (∀ k' ∈ jsKeys env, matchedKey env (activePrefixes cp) k' = true →
          cleanKeyOf (activePrefixes cp) k' ≠ k) →
        jsGet (getAllEnvVars true env cp) k = some "") := by
  constructor
  · intro l₁ l₂ k hnd
    have hkeys : jsKeys (l₁ ++ (k, (none : Option String)) :: l₂)
        = jsKeys l₁ ++ k :: jsKeys l₂ := by
      simp [jsKeys]
    have hkeys2 : jsKeys (l₁ ++ l₂) = jsKeys l₁ ++ jsKeys l₂ := by
      simp [jsKeys]
    rw [hkeys, List.nodup_append] at hnd
    obtain ⟨hnd₁, hnd₂, hdisj⟩ := hnd
    rw [List.nodup_cons] at hnd₂
    have hk2 : k ∉ jsKeys l₂ := hnd₂.1
    have hk1 : k ∉ jsKeys l₁ := fun hmem => hdisj hmem (List.mem_cons_self ..)
    have hgetk : jsGet (l₁ ++ (k, (none : Option String)) :: l₂) k = none :=
      jsGet_append_cons_self l₁ l₂ k none hk1
    have hcong : ∀ key, key ∈ jsKeys l₁ ++ jsKeys l₂ →
        jsGet (l₁ ++ (k, (none : Option String)) :: l₂) key = jsGet (l₁ ++ l₂) key := by
      intro key hkmem
      have hne : key ≠ k := by
        intro he
        rw [he] at hkmem
        rcases List.mem_append.1 hkmem with hmem | hmem
        · exact hk1 hmem
        · exact hk2 hmem
      exact jsGet_middle_skip l₁ l₂ k none key hne
    unfold getAllEnvVars
    rw [if_pos rfl, if_pos rfl, hkeys, hkeys2]
    have hsplit : resolveGo (l₁ ++ (k, (none : Option String)) :: l₂) (activePrefixes cp)
          (jsKeys l₁ ++ k :: jsKeys l₂) []
        = resolveGo (l₁ ++ (k, (none : Option String)) :: l₂) (activePrefixes cp) (jsKeys l₂)
            (resolveStep (l₁ ++ (k, (none : Option String)) :: l₂) (activePrefixes cp)
              (resolveGo (l₁ ++ (k, (none : Option String)) :: l₂) (activePrefixes cp)
                (jsKeys l₁) []) k) := by
      unfold resolveGo
      rw [List.foldl_append, List.foldl_cons]
    have hskip : resolveStep (l₁ ++ (k, (none : Option String)) :: l₂) (activePrefixes cp)
          (resolveGo (l₁ ++ (k, (none : Option String)) :: l₂) (activePrefixes cp)
            (jsKeys l₁) []) k
        = resolveGo (l₁ ++ (k, (none : Option String)) :: l₂) (activePrefixes cp)
            (jsKeys l₁) [] := by
      unfold resolveStep
      rw [hgetk]
    have hjoin : resolveGo (l₁ ++ l₂) (activePrefixes cp) (jsKeys l₁ ++ jsKeys l₂) []
        = resolveGo (l₁ ++ l₂) (activePrefixes cp) (jsKeys l₂)
            (resolveGo (l₁ ++ l₂) (activePrefixes cp) (jsKeys l₁) []) := by
      unfold resolveGo
      rw [List.foldl_append]
    rw [hsplit, hskip, hjoin]
    have hc₁ : ∀ key ∈ jsKeys l₁,
        jsGet (l₁ ++ (k, (none : Option String)) :: l₂) key = jsGet (l₁ ++ l₂) key :=
      fun key hkmem => hcong key (List.mem_append.2 (Or.inl hkmem))
    have hc₂ : ∀ key ∈ jsKeys l₂,
        jsGet (l₁ ++ (k, (none : Option String)) :: l₂) key = jsGet (l₁ ++ l₂) key :=
      fun key hkmem => hcong key (List.mem_append.2 (Or.inr hkmem))
    rw [resolveGo_congr _ _ (activePrefixes cp) (jsKeys l₁) [] hc₁]
    exact resolveGo_congr _ _ (activePrefixes cp) (jsKeys l₂) _ hc₂
  · intro env k hm hv hany hnc
    have hmk : matchedKey env (activePrefixes cp) k = true := by
      unfold matchedKey
      rw [hv, hany]
      rfl
    have hwk : writesTo env (activePrefixes cp) k k = true :=
      (writesTo_iff env (activePrefixes cp) k k).2 ⟨hmk, Or.inl rfl⟩
    have hu : ∀ k' ∈ jsKeys env, writesTo env (activePrefixes cp) k' k = true → k' = k := by
      intro k' hm' hw'
      obtain ⟨hmk', hx'⟩ := (writesTo_iff env (activePrefixes cp) k' k).1 hw'
      rcases hx' with h | h
      · exact h.symm
      · exact absurd h.symm (hnc k' hm' hmk')
    have hlw := lastWriterFrom_unique env (activePrefixes cp) k k (jsKeys env) hm hwk hu
    rw [jsGet_getAllEnvVars_true, hlw]
    exact hv

/-- Claim C9 counterexample.  First map: `REACT_APP_X` is bound to literal
undefined, yet the output contains the key `REACT_APP_X` (written as the
cleaned name of `VITE_REACT_APP_X`), so the undefined key's name is not
excluded from the output entirely.  Second map: `REACT_APP_PORT` has the
empty-string value but the output binds it to `"x"` (overwritten by the
cleaned name of `VITE_REACT_APP_PORT`), not to `""`. -/
theorem resolver_undefined_excluded_empty_retained_cex :
    jsGet (getAllEnvVars true
        [(("REACT_APP_X" : String), (none : Option String)),
         (("VITE_REACT_APP_X" : String), some "v")] none) "REACT_APP_X" = some "v"
    ∧ "REACT_APP_X" ∈ jsKeys (getAllEnvVars true
        [(("REACT_APP_X" : String), (none : Option String)),
         (("VITE_REACT_APP_X" : String), some "v")] none)
    ∧ jsGet (getAllEnvVars true
        [(("REACT_APP_PORT" : String), some ""),
         (("VITE_REACT_APP_PORT" : String), some "x")] none) "REACT_APP_PORT" = some "x" := by
  refine ⟨?_, ?_, ?_⟩ <;> decide

/-- Witness for claim C9 at concrete maps without collisions. -/
theorem resolver_undefined_excluded_empty_retained_witness :
    getAllEnvVars true
        [(("REACT_APP_A" : String), (none : Option String)),
         (("REACT_APP_B" : String), some "b")] none
      = getAllEnvVars true [(("REACT_APP_B" : String), some "b")] none
    ∧ jsGet (getAllEnvVars true [(("REACT_APP_PORT" : String), some "")] none)
        "REACT_APP_PORT" = some "" := by
  have h := resolver_undefined_excluded_empty_retained (none : Option String)
  constructor
  · exact h.1 [] [("REACT_APP_B", some "b")] "REACT_APP_A" (by decide)
  · exact h.2 [("REACT_APP_PORT", some "")] "REACT_APP_PORT"
      (by decide) (by decide) (by decide) (by decide)

/-- Claim C7.  Once the cache is populated, every later `useEnv` call, for
ANY configuration, returns the cached mapping unchanged, reports no error,
and leaves the module state untouched: no resolution, fallback merge or
required check of the new configuration takes place until the cache is
cleared.  The outcome does not depend on the options at all. -/
theorem useEnv_cache_hit (b : Bool) (env : JSObj) (opts : UseEnvOptions)
    (st : ModuleState) (c : JSObj) (h : st.envCache = some c) :
    useEnv b env opts st =
      { initialVars := c, finalVars := c, error := none, state := st } := by
  unfold useEnv useEnvGo
  rw [h]
  simp

/-- Witness for claim C7: a populated cache is returned as-is. -/
theorem useEnv_cache_hit_witness :
    useEnv true [] {} { envCache := some [(("K" : String), some "v")], isLoading := false }
      = { initialVars := [(("K" : String), some "v")],
          finalVars := [(("K" : String), some "v")],
          error := none,
          state := { envCache := some [(("K" : String), some "v")], isLoading := false } } :=
  useEnv_cache_hit true [] {}
    { envCache := some [("K", some "v")], isLoading := false } [("K", some "v")] rfl

/-- Claim C5.  Two successive `useEnv` invocations with the same
configuration, the second starting from the state the first left behind
(no intervening cache clear), expose the same mapping. -/
theorem useEnv_idempotent (b : Bool) (env : JSObj) (opts : UseEnvOptions)
    (st : ModuleState) :
    (useEnv b env opts ((useEnv b env opts st).state)).finalVars
      = (useEnv b env opts st).finalVars := by
  obtain ⟨cache, loading⟩ := st
  cases cache with
  | some c => simp [useEnv, useEnvGo]
  | none =>
    cases loading with
    | true => simp [useEnv, useEnvGo]
    | false => simp [useEnv, useEnvGo]

/-- Claim C6.  `clearEnvCache` takes the state to the fresh-start state
(it only nulls the cache; between invocations the in-progress flag is
false), so the next `useEnv` invocation behaves exactly as from a freshly
started process, and its exposed mapping is a fresh resolution of the
ambient map with the fallbacks merged in, not any previously cached
mapping. -/
theorem clearEnvCache_fresh (b : Bool) (env : JSObj) (opts : UseEnvOptions)
    (st : ModuleState) (h : st.isLoading = false) :
    useEnv b env opts (clearEnvCache st)
        = useEnv b env opts { envCache := none, isLoading := false }
    ∧ (useEnv b env opts (clearEnvCache st)).finalVars
        = applyFallbacks (getAllEnvVars b env opts.prefixOpt) opts.fallbacks := by
  obtain ⟨cache, loading⟩ := st
  have h' : loading = false := h
  subst h'
  constructor
  · rfl
  · simp [useEnv, useEnvGo, clearEnvCache]

/-- Witness for claim C6 at a concrete populated state. -/
theorem clearEnvCache_fresh_witness :
    useEnv true [(("REACT_APP_K" : String), some "v")] {}
        (clearEnvCache { envCache := some [], isLoading := false })
      = useEnv true [(("REACT_APP_K" : String), some "v")] {}
          { envCache := none, isLoading := false }
    ∧ (useEnv true [(("REACT_APP_K" : String), some "v")] {}
        (clearEnvCache { envCache := some [], isLoading := false })).finalVars
      = applyFallbacks
          (getAllEnvVars true [(("REACT_APP_K" : String), some "v")]
            (UseEnvOptions.prefixOpt {}))
          (UseEnvOptions.fallbacks {}) :=
  clearEnvCache_fresh true [("REACT_APP_K", some "v")] {}
    { envCache := some [], isLoading := false } rfl

theorem jsGet_applyFallbacks_of_some (fallbacks : List (String × String)) :
    ∀ (vars : JSObj) (K : String) (v : String), jsGet vars K = some v →
      jsGet (applyFallbacks vars fallbacks) K = some v := by
  induction fallbacks with
  | nil => intro vars K v h; exact h
  | cons f fb ih =>
    intro vars K v h
    have hstep : applyFallbacks vars (f :: fb)
        = applyFallbacks
            (if jsGet vars f.1 = none then jsSet vars f.1 (some f.2) else vars) fb := rfl
    rw [hstep]
    by_cases hf : jsGet vars f.1 = none
    · rw [if_pos hf]
      apply ih
      rw [jsGet_jsSet]
      have hK : ¬ (K = f.1) := by
        intro he
        rw [he, hf] at h
        exact Option.noConfusion h
      rw [if_neg hK]
      exact h
    · rw [if_neg hf]
      exact ih vars K v h

theorem useEnv_finalVars_eq (b : Bool) (env : JSObj) (opts : UseEnvOptions)
    (st : ModuleState) (hc : st.envCache = none) (hl : st.isLoading = false) :
    (useEnv b env opts st).finalVars
      = applyFallbacks (getAllEnvVars b env opts.prefixOpt) opts.fallbacks := by
  unfold useEnv useEnvGo
  rw [hc, hl]
  simp

/-- Claim C4.  When the resolution pass runs, a key that the resolution
binds to a defined value keeps exactly that value in the returned mapping
whatever fallbacks are configured; and the merge changes a key's reading
only when the resolution reads undefined at it, so fallbacks apply only to
genuinely absent keys. -/
theorem fallback_non_override (b : Bool) (env : JSObj) (opts : UseEnvOptions)
    (st : ModuleState) (K : String)
    (hc : st.envCache = none) (hl : st.isLoading = false) :
    (∀ v, jsGet (getAllEnvVars b env opts.prefixOpt) K = some v →
        jsGet (useEnv b env opts st).finalVars K = some v)
    ∧ (jsGet (useEnv b env opts st).finalVars K
          ≠ jsGet (getAllEnvVars b env opts.prefixOpt) K →
        jsGet (getAllEnvVars b env opts.prefixOpt) K = none) := by
  have hfin := useEnv_finalVars_eq b env opts st hc hl
  constructor
  · intro v hv
    rw [hfin]
    exact jsGet_applyFallbacks_of_some opts.fallbacks _ K v hv
  · intro hne
    cases hval : jsGet (getAllEnvVars b env opts.prefixOpt) K with
    | none => rfl
    | some v =>
      exfalso
      apply hne
      rw [hfin, jsGet_applyFallbacks_of_some opts.fallbacks _ K v hval, hval]

/-- Witness for claim C4: a resolved key keeps its value although a
fallback for it is configured. -/
theorem fallback_non_override_witness :
    jsGet (useEnv true [(("REACT_APP_K" : String), some "x")]
        { prefixOpt := none, required := [], fallbacks := [("K", "fb")] }
        { envCache := none, isLoading := false }).finalVars "K" = some "x" := by
  have h := fallback_non_override true [("REACT_APP_K", some "x")]
    { prefixOpt := none, required := [], fallbacks := [("K", "fb")] }
    { envCache := none, isLoading := false } "K" rfl rfl
  exact h.1 "x" (by decide)

theorem mem_missingVars_iff (vars : JSObj) (required : List String) (k : String) :
    k ∈ missingVars vars required ↔
      k ∈ required ∧ (jsGet vars k = none ∨ jsGet vars k = some "") := by
  unfold missingVars
  rw [List.mem_filter]
  constructor
  · rintro ⟨h1, h2⟩
    refine ⟨h1, ?_⟩
    simpa only [Bool.or_eq_true, beq_iff_eq] using h2
  · rintro ⟨h1, h2⟩
    refine ⟨h1, ?_⟩
    simpa only [Bool.or_eq_true, beq_iff_eq] using h2

theorem prefixHint_contains (cp : Option String) :
    ∀ q ∈ activePrefixes cp, strContains (prefixHint cp) q := by
  have hdef : ∀ q ∈ defaultPrefixes, strContains "REACT_APP_/NEXT_PUBLIC_/VITE_" q := by
    intro q hq
    fin_cases hq
    · exact ⟨"".data, "/NEXT_PUBLIC_/VITE_".data, by decide⟩
    · exact ⟨"REACT_APP_/".data, "/VITE_".data, by decide⟩
    · exact ⟨"REACT_APP_/NEXT_PUBLIC_/".data, "".data, by decide⟩
    · exact ⟨"REACT_APP_/NEXT_".data, "/VITE_".data, by decide⟩
  cases cp with
  | none => exact hdef
  | some p =>
    by_cases hp : p = ""
    · subst hp
      intro q hq
      simp only [activePrefixes, if_pos rfl] at hq
      exact hdef q hq
    · intro q hq
      simp only [activePrefixes] at hq
      rw [if_neg hp, List.mem_singleton] at hq
      rw [hq]
      have hph : prefixHint (some p) = p := by
        simp only [prefixHint]
        rw [if_neg hp]
      rw [hph]
      exact ⟨[], [], by simp⟩

/-- Claim C3.  Whenever the merged mapping reads undefined or the empty
string at some required key, the pass produces the diagnostic string built
from exactly the required keys that are missing or empty (all of them and
no others, as the membership equivalence states) and from the prefix
hint; the hint is the caller-supplied prefix when a truthy one was given,
otherwise a fixed text, and every active prefix occurs inside the hint. -/
theorem useEnv_missing_required_diag (b : Bool) (env : JSObj) (opts : UseEnvOptions)
    (st : ModuleState) (hc : st.envCache = none) (hl : st.isLoading = false)
    (hmiss : ∃ k, k ∈ opts.required ∧
      (jsGet (applyFallbacks (getAllEnvVars b env opts.prefixOpt) opts.fallbacks) k = none ∨
       jsGet (applyFallbacks (getAllEnvVars b env opts.prefixOpt) opts.fallbacks) k
         = some "")) :
    (useEnv b env opts st).error
      = some (diagnosticMessage
          (missingVars (applyFallbacks (getAllEnvVars b env opts.prefixOpt) opts.fallbacks)
            opts.required)
          (prefixHint opts.prefixOpt))
    ∧ (∀ k, k ∈ missingVars
          (applyFallbacks (getAllEnvVars b env opts.prefixOpt) opts.fallbacks) opts.required
        ↔ k ∈ opts.required ∧
          (jsGet (applyFallbacks (getAllEnvVars b env opts.prefixOpt) opts.fallbacks) k
              = none ∨
           jsGet (applyFallbacks (getAllEnvVars b env opts.prefixOpt) opts.fallbacks) k
              = some ""))
    ∧ (∀ q ∈ activePrefixes opts.prefixOpt, strContains (prefixHint opts.prefixOpt) q) := by
  refine ⟨?_, fun k => mem_missingVars_iff _ _ k, prefixHint_contains opts.prefixOpt⟩
  have hne : missingVars
      (applyFallbacks (getAllEnvVars b env opts.prefixOpt) opts.fallbacks)
      opts.required ≠ [] := by
    obtain ⟨k, hk, hv⟩ := hmiss
    intro hnil
    have hmem := (mem_missingVars_iff
      (applyFallbacks (getAllEnvVars b env opts.prefixOpt) opts.fallbacks)
      opts.required k).2 ⟨hk, hv⟩
    rw [hnil] at hmem
    exact absurd hmem (List.not_mem_nil k)
  have hlen : (missingVars
      (applyFallbacks (getAllEnvVars b env opts.prefixOpt) opts.fallbacks)
      opts.required).length > 0 := by
    cases hval : missingVars
        (applyFallbacks (getAllEnvVars b env opts.prefixOpt) opts.fallbacks)
        opts.required with
    | nil => exact absurd hval hne
    | cons a l => simp
  unfold useEnv useEnvGo
  rw [hc, hl]
  rw [if_pos ⟨rfl, rfl⟩]
  simp only
  rw [if_pos hlen]

/-- Witness for claim C3 at end-to-end scenario 2 of the specification:
empty ambient map, one required key. -/
theorem useEnv_missing_required_diag_witness :
    (useEnv true [] { prefixOpt := none, required := ["API_URL"], fallbacks := [] }
        { envCache := none, isLoading := false }).error
      = some (diagnosticMessage ["API_URL"] "REACT_APP_/NEXT_PUBLIC_/VITE_") := by
  have h := useEnv_missing_required_diag true []
    { prefixOpt := none, required := ["API_URL"], fallbacks := [] }
    { envCache := none, isLoading := false } rfl rfl ⟨"API_URL", by decide⟩
  exact h.1.trans (by decide)

/-- Claim C10.  When the deferred resolution pass runs and the ambient
scan fails, the accessor's outcome is still an ordinary value (the model
is total, mirroring the `try`/`catch` of lines 68-101 which never
rethrows): the exposed mapping is the previously returned one, the cached
mapping is unchanged by the failed pass, the failure is reported only as
the diagnostic error string of line 98, and the in-progress flag is left
cleared by the `finally` so a later call can resolve again. -/
theorem useEnv_scan_failure (e : String) (init : JSObj) (opts : UseEnvOptions)
    (st : ModuleState) (hc : st.envCache = none) (hl : st.isLoading = false) :
    (useEnvGo (Except.error e) init opts st).finalVars = init
    ∧ (useEnvGo (Except.error e) init opts st).state.envCache = st.envCache
    ∧ (useEnvGo (Except.error e) init opts st).state.isLoading = false
    ∧ (useEnvGo (Except.error e) init opts st).error
        = some ("Failed to load environment variables: " ++ e) := by
  unfold useEnvGo
  rw [hc, hl]
  simp

/-- Witness for claim C10 at a concrete failing scan. -/
theorem useEnv_scan_failure_witness :
    (useEnvGo (Except.error "boom") [] {}
        { envCache := none, isLoading := false }).finalVars = []
    ∧ (useEnvGo (Except.error "boom") [] {}
        { envCache := none, isLoading := false }).state.envCache = none
    ∧ (useEnvGo (Except.error "boom") [] {}
        { envCache := none, isLoading := false }).state.isLoading = false
    ∧ (useEnvGo (Except.error "boom") [] {}
        { envCache := none, isLoading := false }).error
        = some ("Failed to load environment variables: " ++ "boom") :=
  useEnv_scan_failure "boom" [] {} { envCache := none, isLoading := false } rfl rfl

/-- Claim C8.  The single-key accessor returns the bulk accessor's current
mapping's value at the key when that value is defined (in particular a
present empty string is returned as-is, not replaced by the fallback),
otherwise the fallback when supplied, otherwise undefined; and it is
implemented through the bulk accessor with empty options, so it leaves the
module state exactly as that bulk call does, driving the same caching
machinery. -/
theorem useEnvVar_spec (b : Bool) (env : JSObj) (key : String)
    (fallback : Option String) (st : ModuleState) :
    (∀ v, jsGet (useEnv b env {} st).finalVars key = some v →
        (useEnvVar b env key fallback st).1 = some v)
    ∧ (jsGet (useEnv b env {} st).finalVars key = none →
        (useEnvVar b env key fallback st).1 = fallback)
    ∧ (jsGet (useEnv b env {} st).finalVars key = some "" →
        (useEnvVar b env key fallback st).1 = some "")
    ∧ (useEnvVar b env key fallback st).2 = (useEnv b env {} st).state := by
  unfold useEnvVar
  refine ⟨?_, ?_, ?_, ?_⟩
  · intro v h
    rw [h]
  · intro h
    rw [h]
  · intro h
    rw [h]
  · cases jsGet (useEnv b env {} st).finalVars key <;> rfl

/-- Witness for claim C8: a resolved key wins over the fallback. -/
theorem useEnvVar_spec_witness :
    (useEnvVar true [(("REACT_APP_K" : String), some "x")] "K" (some "fb")
        { envCache := none, isLoading := false }).1 = some "x" := by
  have h := useEnvVar_spec true [("REACT_APP_K", some "x")] "K" (some "fb")
    { envCache := none, isLoading := false }
  exact h.1 "x" (by decide)
